import Mathlib

/-!
Verification of the structural-diff core of difftastic (src/syntax.rs and
src/style.rs): syntax trees with change metadata, content-id hash-consing,
deep change propagation, matched-position derivation (including the
comment word differ), and the span-based styling pipeline.

Rust `usize` values here are `Nat`: none of the verified code subtracts
below zero or overflows in the modelled paths, except where noted in the
doc comment of the definition (Nat subtraction is then used, and the
deviation is called out).
-/

namespace Difftastic

/-- Model of `SingleLineSpan` (src/positions.rs, not under src/):
a single-line region `{line, start_col, end_col}`.  The spec describes it as
"single-line spans `{line, start_col, end_col}` in codepoint units".
`LineNumber` is modelled as a plain `Nat`. -/
structure SingleLineSpan where
  line : Nat
  start_col : Nat
  end_col : Nat
deriving DecidableEq, Repr

/-- Model of `AtomKind` (src/syntax.rs): `Normal | Comment | Keyword`. -/
inductive AtomKind where
  | Normal
  | Comment
  | Keyword
deriving DecidableEq, Repr

/-- Model of `Syntax` (src/syntax.rs): a `List` node with open/close delimiter
text and spans plus children, or an `Atom` leaf with text, spans and a kind.
The mutable `SyntaxInfo` block (`next`/`prev`/`parent`/`change`/ids) is not a
field here: each metadata pass is modelled as a separate function from the
immutable tree to the values it writes, mirroring the single-writer-per-pass
design.  `num_descendants` is a cached derived count and is not needed by any
verified pass. -/
inductive Syntax where
  | list (open_position : List SingleLineSpan) (open_content : String)
      (children : List Syntax)
      (close_position : List SingleLineSpan) (close_content : String)
  | atom (position : List SingleLineSpan) (content : String) (kind : AtomKind)

/-- The per-node result of an id-assigning pass (`set_unique_id` or
`set_content_id`): the id written into the node's `Cell`, with the results
for the node's children.  The tree of `IdTree`s produced for a forest has
exactly the shape of that forest. -/
inductive IdTree where
  | mk (id : Nat) (children : List IdTree)

/-- The id stored at the root of an `IdTree`. -/
def IdTree.id : IdTree → Nat
  | .mk i _ => i

/-- The children of an `IdTree`. -/
def IdTree.children : IdTree → List IdTree
  | .mk _ cs => cs

/-! ### String helpers

`codepoint_len` and `substring_by_codepoint` live in src/lines.rs, which is
not under src/; they are modelled from the spec ("unicode-codepoint indexed,
not byte indexed", "spans beyond text length are clipped silently"). -/

/-- Modelled from the spec: `codepoint_len` (src/lines.rs, not under src/)
counts unicode codepoints, which for a Lean `String` is `s.length`. -/
def codepoint_len (s : String) : Nat :=
  s.length

/-- Modelled from the spec: `substring_by_codepoint` (src/lines.rs, not under
src/) slices by codepoint index; out-of-range ends are clipped ("spans beyond
text length are clipped silently"), and an inverted range yields the empty
string. -/
def substring_by_codepoint (s : String) (start fin : Nat) : String :=
  ⟨(s.data.drop start).take (fin - start)⟩

/-- Split a character list at every newline, keeping empty segments
(`"a\n"` gives `["a", ""]`); `cur` is the reversed current segment.
Helper for the model of Rust `str::lines`. -/
def splitNewlines (cur : List Char) : List Char → List (List Char)
  | [] => [cur.reverse]
  | c :: cs =>
    if c = '\n' then cur.reverse :: splitNewlines [] cs
    else splitNewlines (c :: cur) cs

/-- Model of Rust `str::lines` as used by `set_content_id`
(src/syntax.rs:340-345): split on `'\n'`, drop a final empty segment
(so a trailing newline adds no line and `""` has no lines), and strip a
trailing `'\r'` from each line. -/
def rustLines (s : String) : List String :=
  let ps := splitNewlines [] s.data
  let ps := if ps.getLast? = some [] then ps.dropLast else ps
  ps.map fun l => ⟨if l.getLast? = some '\r' then l.dropLast else l⟩

/-- Model of Rust `str::trim_start` applied per comment line
(src/syntax.rs:343): drop leading whitespace characters.  Lean's
`Char.isWhitespace` covers the whitespace characters occurring in source
text (space, tab, CR, LF); exotic unicode space differences are immaterial
to the verified claims. -/
def trimStart (s : String) : String :=
  ⟨s.data.dropWhile Char.isWhitespace⟩

/-- Model of Rust `Vec::join("\n")` on the line list (src/syntax.rs:345). -/
def joinNewlines : List String → String
  | [] => ""
  | [x] => x
  | x :: xs => x ++ "\n" ++ joinNewlines xs

/-! ### Content ids (hash-consing) and unique ids -/

/-- Model of the `ContentKey` type alias (src/syntax.rs:303-309):
`(Option<String>, Option<String>, Vec<u32>, bool, Option<AtomKind>)`. -/
abbrev ContentKey :=
  Option String × Option String × List Nat × Bool × Option AtomKind

/-- Model of the `HashMap<ContentKey, u32>` accumulated by `set_content_id`:
an association list in insertion order (keys are inserted at most once, so
hash-iteration-order differences are immaterial). -/
abbrev ContentEnv := List (ContentKey × Nat)

/-- `HashMap` lookup on the association-list model: first entry whose key
matches. -/
def lookupEnv (k : ContentKey) : ContentEnv → Option Nat
  | [] => none
  | e :: rest => if e.1 = k then some e.2 else lookupEnv k rest

/-- Model of `existing.entry(key).or_insert(next_id)` with
`next_id = existing.len() as u32 + 1` (src/syntax.rs:354-358): an existing
key keeps its id; a fresh key is appended with id `len + 1`. -/
def assignId (k : ContentKey) (env : ContentEnv) : Nat × ContentEnv :=
  match lookupEnv k env with
  | some i => (i, env)
  | none => (env.length + 1, env ++ [(k, env.length + 1)])

/-- The `clean_content` computation of `set_content_id`
(src/syntax.rs:339-349): a multi-line `Comment` atom has each line's leading
whitespace stripped and the lines rejoined with `"\n"`; all other atoms use
their raw text. -/
def clean_content (content : String) (kind : AtomKind) : String :=
  if kind = AtomKind.Comment ∧ (rustLines content).length > 1 then
    joinNewlines ((rustLines content).map trimStart)
  else content

/-- The `ContentKey` built for an `Atom` (src/syntax.rs:334-351):
`(Some(clean_content), None, vec![], false, Some(kind))`. -/
def atomKey (content : String) (kind : AtomKind) : ContentKey :=
  (some (clean_content content kind), none, [], false, some kind)

/-- Model of `set_content_id` (src/syntax.rs:311-360): walk the forest,
children before the enclosing list, building a `ContentKey` per node and
assigning through `assignId`.  Returns the id tree for the forest together
with the final map. -/
def set_content_id : List Syntax → ContentEnv → List IdTree × ContentEnv
  | [], env => ([], env)
  | .atom _ content kind :: rest, env =>
    let a := assignId (atomKey content kind) env
    let r := set_content_id rest a.2
    (.mk a.1 [] :: r.1, r.2)
  | .list _ open_content children _ close_content :: rest, env =>
    let c := set_content_id children env
    let a := assignId
      (some open_content, some close_content, c.1.map IdTree.id, true, none) c.2
    let r := set_content_id rest a.2
    (.mk a.1 c.1 :: r.1, r.2)
termination_by ns _ => sizeOf ns

/-- Model of `set_unique_id` (src/syntax.rs:371-379): a single running
counter assigns ids in preorder (node before its children, children before
later siblings). -/
def set_unique_id : List Syntax → Nat → List IdTree × Nat
  | [], n => ([], n)
  | .atom _ _ _ :: rest, n =>
    let r := set_unique_id rest (n + 1)
    (.mk n [] :: r.1, r.2)
  | .list _ _ children _ _ :: rest, n =>
    let c := set_unique_id children (n + 1)
    let r := set_unique_id rest c.2
    (.mk n c.1 :: r.1, r.2)
termination_by ns _ => sizeOf ns

/-- Model of `init_info` (src/syntax.rs:293-301) restricted to the two
id-assigning passes (the pointer/contiguity passes write no ids): unique ids
run over all of `lhs_roots` and then all of `rhs_roots` with one counter
starting at 0; content ids share one map across both sides, left first.
Result: `((lhs unique ids, rhs unique ids), (lhs content ids, rhs content
ids))`. -/
def init_info (lhs_roots rhs_roots : List Syntax) :
    (List IdTree × List IdTree) × (List IdTree × List IdTree) :=
  let ul := set_unique_id lhs_roots 0
  let ur := set_unique_id rhs_roots ul.2
  let cl := set_content_id lhs_roots []
  let cr := set_content_id rhs_roots cl.2
  ((ul.1, ur.1), (cl.1, cr.1))

/-- The final content map after `init_info` has processed both sides. -/
def finalContentEnv (lhs_roots rhs_roots : List Syntax) : ContentEnv :=
  (set_content_id rhs_roots (set_content_id lhs_roots []).2).2

/-- Well-formedness of the content map: the ids stored are exactly
`1, 2, ..., len` in insertion order (each insertion records `len + 1`).
This is the invariant `assignId` maintains from the empty map; it makes the
stored ids pairwise distinct and strictly positive. -/
def envWF (env : ContentEnv) : Prop :=
  env.map Prod.snd = List.range' 1 env.length

/-- The content ids assigned to the roots of the one-node forests `[a]`
(left side) and `[b]` (right side) by the shared hash-consing pass of
`init_info`. -/
def rootContentIds (a b : Syntax) : Nat × Nat :=
  let l := set_content_id [a] []
  let r := set_content_id [b] l.2
  ((l.1.headD (.mk 0 [])).id, (r.1.headD (.mk 0 [])).id)

/-- Every id in an id-tree forest, in preorder. -/
def collectIds : List IdTree → List Nat
  | [] => []
  | .mk i cs :: rest => i :: (collectIds cs ++ collectIds rest)
termination_by ts => sizeOf ts

/-- Number of nodes in a forest. -/
def nodeCount : List Syntax → Nat
  | [] => 0
  | .atom _ _ _ :: rest => 1 + nodeCount rest
  | .list _ _ children _ _ :: rest => 1 + nodeCount children + nodeCount rest
termination_by ns => sizeOf ns

/-- Every atom of a forest paired with its assigned id: `(content, kind, id)`
triples, read off a forest and its shape-matching id-tree forest. -/
def collectAtoms : List Syntax → List IdTree → List (String × AtomKind × Nat)
  | .atom _ content kind :: rest, t :: ts =>
    (content, kind, t.id) :: collectAtoms rest ts
  | .list _ _ children _ _ :: rest, t :: ts =>
    collectAtoms children t.children ++ collectAtoms rest ts
  | _, _ => []
termination_by ns _ => sizeOf ns

/-- The `(content, kind, content_id)` triples of every atom on both sides
after `init_info`. -/
def allAtomIds (lhs_roots rhs_roots : List Syntax) :
    List (String × AtomKind × Nat) :=
  collectAtoms lhs_roots (init_info lhs_roots rhs_roots).2.1 ++
    collectAtoms rhs_roots (init_info lhs_roots rhs_roots).2.2

/-- Model of `impl PartialEq for Syntax` (src/syntax.rs:458-464): node
equality reads nothing but the two nodes' `content_id` cells.  `impl Hash`
(src/syntax.rs:467-471) likewise hashes the `content_id` alone, so equality
and hashing are functions of the content id only. -/
def syntaxEq (self_content_id other_content_id : Nat) : Bool :=
  self_content_id == other_content_id

/-! ### Word splitting and the comment word differ -/

/-- The character class `[a-zA-Z0-9]` of the `split_words` regex
(src/syntax.rs:535). -/
def isWordChar (c : Char) : Bool :=
  ('a' ≤ c && c ≤ 'z') || ('A' ≤ c && c ≤ 'Z') || ('0' ≤ c && c ≤ '9')

/-- Tokenizer loop for `split_words`: `cur` is the reversed alphanumeric run
currently being read.  Any character outside `[a-zA-Z0-9]` (including `'\n'`)
ends the run and is emitted as its own one-character token, matching the
leftmost-first semantics of the regex `[a-zA-Z0-9]+|\n|[^a-zA-Z0-9\n]` under
`find_iter`. -/
def splitWordsGo (cur : List Char) : List Char → List String
  | [] => if cur.isEmpty then [] else [⟨cur.reverse⟩]
  | c :: cs =>
    if isWordChar c then splitWordsGo (c :: cur) cs
    else
      (if cur.isEmpty then [] else [(⟨cur.reverse⟩ : String)]) ++
        (⟨[c]⟩ : String) :: splitWordsGo [] cs

/-- Model of `split_words` (src/syntax.rs:533-539): tokenize into maximal
alphanumeric runs, single newlines, and single other characters. -/
def split_words (s : String) : List String :=
  splitWordsGo [] s.data

/-- Modelled from the spec: the newline index of `NewlinePositions::from`
(src/lines.rs, not under src/), represented as the `(start offset, end
offset)` pair of every line of the string (end excludes the newline). -/
def lineRangesAux : List (List Char) → Nat → List (Nat × Nat)
  | [], _ => []
  | l :: ls, start => (start, start + l.length) :: lineRangesAux ls (start + l.length + 1)

/-- The line ranges of a string (see `lineRangesAux`); a string always has at
least one line (`""` has the single empty line `(0, 0)`). -/
def lineRanges (s : String) : List (Nat × Nat) :=
  lineRangesAux (splitNewlines [] s.data) 0

/-- Modelled from the spec: `NewlinePositions::from_offsets` (src/lines.rs,
not under src/), "a newline-index utility that converts flat byte/char
offsets into spans": the region `[start, fin)` becomes one span per line it
touches, with columns relative to that line's start. -/
def from_offsets (s : String) (start fin : Nat) : List SingleLineSpan :=
  (lineRanges s).enum.filterMap fun p =>
    if p.2.1 ≤ fin ∧ start ≤ p.2.2 then
      some ⟨p.1, start - p.2.1, min fin p.2.2 - p.2.1⟩
    else none

/-- Modelled from the spec: `NewlinePositions::from_offsets_relative_to`
(src/lines.rs, not under src/): spans "anchored at the atom's starting span"
— lines shift by `pos.line`, and columns on the first line shift by
`pos.start_col`. -/
def from_offsets_relative_to (s : String) (pos : SingleLineSpan)
    (start fin : Nat) : List SingleLineSpan :=
  (from_offsets s start fin).map fun sp =>
    if sp.line = 0 then
      ⟨pos.line, pos.start_col + sp.start_col, pos.start_col + sp.end_col⟩
    else ⟨pos.line + sp.line, sp.start_col, sp.end_col⟩

/-- Model of `diff::Result` from the external `diff` crate: an element of the
left sequence only, of both, or of the right sequence only. -/
inductive DiffResult (α : Type) where
  | Left (x : α)
  | Both (x y : α)
  | Right (y : α)
deriving DecidableEq, Repr

/-- Length of a longest common subsequence; helper for the model of
`diff::slice`. -/
def lcsLen [DecidableEq α] : List α → List α → Nat
  | [], _ => 0
  | _ :: _, [] => 0
  | x :: xs, y :: ys =>
    if x = y then lcsLen xs ys + 1
    else max (lcsLen (x :: xs) ys) (lcsLen xs (y :: ys))
termination_by xs ys => xs.length + ys.length

/-- Modelled from the spec: `diff::slice` of the external `diff` crate, "a
classic LCS-based sequence alignment (list-diff) over the two token
sequences": matched elements become `Both`, unmatched left elements `Left`,
unmatched right elements `Right`, in sequence order. -/
def diff_slice [DecidableEq α] : List α → List α → List (DiffResult α)
  | [], ys => ys.map DiffResult.Right
  | x :: xs, [] => (x :: xs).map DiffResult.Left
  | x :: xs, y :: ys =>
    if x = y then DiffResult.Both x y :: diff_slice xs ys
    else if lcsLen (x :: xs) ys ≤ lcsLen xs (y :: ys) then
      DiffResult.Left x :: diff_slice xs (y :: ys)
    else DiffResult.Right y :: diff_slice (x :: xs) ys
termination_by xs ys => xs.length + ys.length

/-- Model of `TokenKind` (src/syntax.rs:481-485). -/
inductive TokenKind where
  | Delimiter
  | Atom (kind : AtomKind)
deriving DecidableEq, Repr

/-- Model of `MatchKind` (src/syntax.rs:488-506). -/
inductive MatchKind where
  | Unchanged (highlight : TokenKind)
      (self_pos : List SingleLineSpan × List SingleLineSpan)
      (opposite_pos : List SingleLineSpan × List SingleLineSpan)
  | Novel (highlight : TokenKind)
  | UnchangedCommentPart (self_pos : SingleLineSpan)
      (opposite_pos : List SingleLineSpan)
  | ChangedCommentPart
deriving DecidableEq, Repr

/-- Model of `MatchedPos` (src/syntax.rs:526-530). -/
structure MatchedPos where
  kind : MatchKind
  pos : SingleLineSpan
deriving DecidableEq, Repr

/-- The loop body of `split_comment_words` (src/syntax.rs:558-598): walk the
diff results keeping a running offset per side; `Left` words emit a
`ChangedCommentPart` at this side's offset, `Both` words emit an
`UnchangedCommentPart` carrying both spans, `Right` words only advance the
opposite offset.  The `[0]` indexing of src/syntax.rs:569 is modelled with
`headD` (the offsets this loop produces always lie inside the content, where
the span list is non-empty). -/
def splitCommentWordsGo (content : String) (pos : SingleLineSpan)
    (opposite_content : String) (opposite_pos : SingleLineSpan) :
    List (DiffResult String) → Nat → Nat → List MatchedPos
  | [], _, _ => []
  | .Left word :: rest, offset, opposite_offset =>
    ⟨.ChangedCommentPart,
        (from_offsets_relative_to content pos offset
            (offset + word.length)).headD ⟨0, 0, 0⟩⟩ ::
      splitCommentWordsGo content pos opposite_content opposite_pos rest
        (offset + word.length) opposite_offset
  | .Both word opposite_word :: rest, offset, opposite_offset =>
    let word_pos := (from_offsets_relative_to content pos offset
      (offset + word.length)).headD ⟨0, 0, 0⟩
    let opposite_word_pos := from_offsets_relative_to opposite_content
      opposite_pos opposite_offset (opposite_offset + opposite_word.length)
    ⟨.UnchangedCommentPart word_pos opposite_word_pos, word_pos⟩ ::
      splitCommentWordsGo content pos opposite_content opposite_pos rest
        (offset + word.length) (opposite_offset + opposite_word.length)
  | .Right opposite_word :: rest, offset, opposite_offset =>
    splitCommentWordsGo content pos opposite_content opposite_pos rest
      offset (opposite_offset + opposite_word.length)

/-- Model of `split_comment_words` (src/syntax.rs:541-601): word-diff the two
comment texts and map each run of offsets back to spans. -/
def split_comment_words (content : String) (pos : SingleLineSpan)
    (opposite_content : String) (opposite_pos : SingleLineSpan) :
    List MatchedPos :=
  splitCommentWordsGo content pos opposite_content opposite_pos
    (diff_slice (split_words content) (split_words opposite_content)) 0 0

/-! ### Change kinds and deep propagation -/

/-- Model of `ChangeKind` (src/syntax.rs:22-27): `Unchanged` and
`ReplacedComment` carry references to nodes of the opposite tree. -/
inductive ChangeKind where
  | Unchanged (other : Syntax)
  | ReplacedComment (this other : Syntax)
  | Novel

/-- The writes performed by one call of `set_change_deep` on a subtree: for
each node (in the shape of the receiver), `some ck` when the call stored `ck`
into the node's `change` cell, `none` when the call never touched the node
(it keeps whatever value it had). -/
inductive WriteTree where
  | mk (write : Option ChangeKind) (children : List WriteTree)

/-- The write recorded at the root of a `WriteTree`. -/
def WriteTree.write : WriteTree → Option ChangeKind
  | .mk w _ => w

/-- The children writes of a `WriteTree`. -/
def WriteTree.children : WriteTree → List WriteTree
  | .mk _ cs => cs

mutual

/-- A subtree never touched by `set_change_deep` (trailing children past the
end of the zip): no node of it receives a write. -/
def untouchedTree : Syntax → WriteTree
  | .atom _ _ _ => .mk none []
  | .list _ _ children _ _ => .mk none (untouchedForest children)
termination_by s => sizeOf s

/-- `untouchedTree` mapped over a forest. -/
def untouchedForest : List Syntax → List WriteTree
  | [] => []
  | c :: cs => untouchedTree c :: untouchedForest cs
termination_by cs => sizeOf cs

end

mutual

/-- Model of `set_change_deep` (src/syntax.rs:269-289): store `ck` on the
receiver; on a `List` receiver, if `ck` is `Unchanged` of a `List`, zip this
node's children with the other list's children and recurse with
`Unchanged(counterpart)` (`scdZip`); for every other `ck` recurse into all
children with the same `ck` (`scdAll`). -/
def set_change_deep : Syntax → ChangeKind → WriteTree
  | .atom _ _ _, ck => .mk (some ck) []
  | .list _ _ children _ _,
      .Unchanged (.list oop ooc ochildren ocp occ) =>
    .mk (some (.Unchanged (.list oop ooc ochildren ocp occ)))
      (scdZip children ochildren)
  | .list _ _ children _ _, ck => .mk (some ck) (scdAll children ck)
termination_by s _ => sizeOf s

/-- The `children.iter().zip(other_children)` loop of `set_change_deep`
(src/syntax.rs:280-282): pairs up to the shorter length recurse with
`Unchanged(counterpart)`; trailing receiver children beyond the zip are not
visited. -/
def scdZip : List Syntax → List Syntax → List WriteTree
  | [], _ => []
  | c :: cs, [] => untouchedTree c :: scdZip cs []
  | c :: cs, o :: os => set_change_deep c (.Unchanged o) :: scdZip cs os
termination_by cs _ => sizeOf cs

/-- The uniform-stamping loop of `set_change_deep` (src/syntax.rs:284-286):
every child recurses with the same `ck`. -/
def scdAll : List Syntax → ChangeKind → List WriteTree
  | [], _ => []
  | c :: cs, ck => set_change_deep c ck :: scdAll cs ck
termination_by cs _ => sizeOf cs

end

/-- Every node of the write tree received exactly the write `some ck`. -/
inductive AllStamped (ck : ChangeKind) : WriteTree → Prop
  | mk (cs : List WriteTree) :
      (∀ c ∈ cs, AllStamped ck c) → AllStamped ck (.mk (some ck) cs)

/-- No node of the write tree received any write. -/
inductive AllNone : WriteTree → Prop
  | mk (cs : List WriteTree) : (∀ c ∈ cs, AllNone c) → AllNone (.mk none cs)

/-! ### Matched-position derivation -/

/-- The per-line loop at the end of `MatchedPos::new` (src/syntax.rs:649-666):
one `MatchedPos` per span of `pos.0`, skipping zero-width spans
(`start_col == end_col`). -/
def perLinePositions (kind : MatchKind) (ps : List SingleLineSpan) :
    List MatchedPos :=
  ps.filterMap fun line_pos =>
    if line_pos.start_col = line_pos.end_col then none
    else some ⟨kind, line_pos⟩

/-- Model of `MatchedPos::new` (src/syntax.rs:603-667).  `none` models a
panic: the `unreachable!()` arms for a `ReplacedComment` whose payloads are
not both atoms (src/syntax.rs:612,617), and the `pos.0[0]` /
`opposite_pos[0]` indexing of an empty position list (src/syntax.rs:625,627).
`Unchanged` pulls the opposite spans from the matched node; `Novel` keeps
only the highlight; both then emit one `MatchedPos` per non-empty span. -/
def MatchedPos.new (ck : ChangeKind) (highlight : TokenKind)
    (pos : List SingleLineSpan × List SingleLineSpan) :
    Option (List MatchedPos) :=
  match ck with
  | .ReplacedComment this opposite =>
    match this, opposite with
    | .atom _ this_content _, .atom opposite_position opposite_content _ =>
      match pos.1, opposite_position with
      | p0 :: _, q0 :: _ =>
        some (split_comment_words this_content p0 opposite_content q0)
      | _, _ => none
    | _, _ => none
  | .Unchanged opposite =>
    let opposite_pos :=
      match opposite with
      | .list open_position _ _ close_position _ =>
        (open_position, close_position)
      | .atom position _ _ => (position, position)
    some (perLinePositions
      (.Unchanged highlight (pos.1, pos.2) opposite_pos) pos.1)
  | .Novel => some (perLinePositions (.Novel highlight) pos.1)

/-- A syntax node as seen by `change_positions`: the immutable tree together
with the current contents of each node's `change` cell (the cell an
annotation pass may or may not have filled). -/
inductive ASyntax where
  | list (change : Option ChangeKind)
      (open_position : List SingleLineSpan) (open_content : String)
      (children : List ASyntax)
      (close_position : List SingleLineSpan) (close_content : String)
  | atom (change : Option ChangeKind) (position : List SingleLineSpan)
      (content : String) (kind : AtomKind)

/-- Model of `change_positions_` (src/syntax.rs:684-738).  `none` models a
panic: the `unwrap_or_else(panic!(...))` on a node whose `change` cell is
unset (src/syntax.rs:699-702,726-729), or a panic inside `MatchedPos::new`.
A `List` node emits its open-delimiter positions, then its children's, then
its close-delimiter positions, all from the same `ChangeKind`; an `Atom`
emits one batch from its own position list. -/
def change_positions_ : List ASyntax → Option (List MatchedPos)
  | [] => some []
  | .atom change position _ kind :: rest =>
    match change with
    | none => none
    | some ck =>
      match MatchedPos.new ck (.Atom kind) (position, []) with
      | none => none
      | some a =>
        match change_positions_ rest with
        | none => none
        | some b => some (a ++ b)
  | .list change open_position _ children close_position _ :: rest =>
    match change with
    | none => none
    | some ck =>
      match MatchedPos.new ck .Delimiter (open_position, close_position) with
      | none => none
      | some a =>
        match change_positions_ children with
        | none => none
        | some b =>
          match MatchedPos.new ck .Delimiter
              (close_position, close_position) with
          | none => none
          | some c =>
            match change_positions_ rest with
            | none => none
            | some d => some (a ++ b ++ c ++ d)
termination_by ns => sizeOf ns

/-- Model of `change_positions` (src/syntax.rs:671-682), the public entry
point.  The two newline indices it builds are never read by
`change_positions_` (the source passes them down unused), so the strings do
not influence the result; they are kept for interface fidelity. -/
def change_positions (src opposite_src : String) (nodes : List ASyntax) :
    Option (List MatchedPos) :=
  let _nl_pos := lineRanges src
  let _opposite_nl_pos := lineRanges opposite_src
  change_positions_ nodes

/-- Whether one call of `MatchedPos::new` with this `ChangeKind` and this
`pos.0` list panics: exactly the `ReplacedComment` defects (a non-atom
payload, an empty `pos.0`, or an opposite atom with an empty position
list). -/
def ckPanics (ck : ChangeKind) (pos0 : List SingleLineSpan) : Bool :=
  match ck with
  | .ReplacedComment (.atom _ _ _) (.atom opposite_position _ _) =>
    pos0.isEmpty || opposite_position.isEmpty
  | .ReplacedComment _ _ => true
  | _ => false

/-- Whether walking the forest hits a panic: a node with an unset `change`
cell, or a node whose `ChangeKind` makes `MatchedPos::new` panic on one of
the position lists it is invoked with (`(open, close)` and `(close, close)`
for a list, `(position, [])` for an atom). -/
def anyDefect : List ASyntax → Bool
  | [] => false
  | .atom change position _ _ :: rest =>
    (match change with
      | none => true
      | some ck => ckPanics ck position) || anyDefect rest
  | .list change open_position _ children close_position _ :: rest =>
    (match change with
      | none => true
      | some ck =>
        ckPanics ck open_position || anyDefect children ||
          ckPanics ck close_position) || anyDefect rest
termination_by ns => sizeOf ns

/-- Every node of the forest has its `change` cell set (the precondition the
claim about `change_positions` speaks of). -/
def allChangesSet : List ASyntax → Bool
  | [] => true
  | .atom change _ _ _ :: rest => change.isSome && allChangesSet rest
  | .list change _ _ children _ _ :: rest =>
    change.isSome && allChangesSet children && allChangesSet rest
termination_by ns => sizeOf ns

/-! ### Styling pipeline (src/style.rs) -/

/-- Model of `colored::Color` restricted to the variants src/style.rs uses. -/
inductive Color where
  | White
  | Red
  | Green
  | BrightRed
  | BrightGreen
  | Purple
  | Yellow
deriving DecidableEq, Repr

/-- Model of `Style` (src/style.rs:14-20). -/
structure Style where
  foreground : Color
  background : Option Color
  bold : Bool
  dimmed : Bool
deriving DecidableEq, Repr

/-- How a piece of output text was produced: through `Style::apply`, through
`.dimmed()`, or through the missing-styles `.purple()` error path.  The ANSI
escape sequences themselves are irrelevant to the verified properties; what
matters is which characters of the line each emitted segment carries. -/
inductive SegKind where
  | styled (st : Style)
  | dimmed
  | error
deriving DecidableEq, Repr

/-- One substring pushed onto the output, with how it was styled. -/
structure Seg where
  text : String
  seg : SegKind
deriving DecidableEq, Repr

/-- Sum of the codepoint lengths of the emitted segments. -/
def totalLen (segs : List Seg) : Nat :=
  (segs.map fun g => g.text.length).sum

/-- The trailing "dim text after the last span" step of `apply_line`
(src/style.rs:151-155). -/
def applyLineTrailing (line : String) (i : Nat) : List Seg :=
  if i < codepoint_len line then
    [⟨substring_by_codepoint line i (codepoint_len line), .dimmed⟩]
  else []

/-- The span loop of `apply_line` (src/style.rs:131-149), with `i` the
running column: a span starting at or past the end of the line stops the
loop (the remaining spans are truncation artifacts); otherwise text before
the span is dimmed, the span's text is styled (clipped to the line), and `i`
jumps to the span's end. -/
def applyLineGo (line : String) (i : Nat) :
    List (SingleLineSpan × Style) → List Seg
  | [] => applyLineTrailing line i
  | (span, style) :: rest =>
    if span.start_col ≥ codepoint_len line then applyLineTrailing line i
    else
      (if i < span.start_col then
        [⟨substring_by_codepoint line i span.start_col, .dimmed⟩]
      else []) ++
        ⟨substring_by_codepoint line span.start_col
            (min (codepoint_len line) span.end_col), .styled style⟩ ::
          applyLineGo line span.end_col rest

/-- Model of `apply_line` (src/style.rs:125-157): an empty style list renders
the whole line in the error colour; otherwise the span loop runs from column
0. -/
def apply_line (line : String) (styles : List (SingleLineSpan × Style)) :
    List Seg :=
  if styles.isEmpty then [⟨line, .error⟩]
  else applyLineGo line 0 styles

/-- The spans of a style list are well-formed and in order starting from
column `i`: each span starts at or after the previous span's end and does
not end before it starts. -/
def spanChainOk (i : Nat) : List (SingleLineSpan × Style) → Bool
  | [] => true
  | (span, _) :: rest =>
    decide (i ≤ span.start_col) && decide (span.start_col ≤ span.end_col) &&
      spanChainOk span.end_col rest

/-- Right-pad with spaces to width `w`, the `format!("{:width$}", s)` of
src/style.rs:54. -/
def padToWidth (w : Nat) (s : String) : String :=
  s ++ ⟨List.replicate (w - s.length) ' '⟩

/-- The chunking loop of `split_string` (src/style.rs:44-58) over the
character list; `first` records whether no chunk has been pushed yet
(`res.is_empty()`).  While more than `max_len` characters remain, emit an
exact chunk; then emit the padded remainder unless it is empty and some
chunk was already pushed.  The source loop does not terminate when
`max_len = 0` and the string is non-empty; this model returns `[]` in that
configuration (no caller reaches it: widths are at least 1). -/
def splitStringParts (max_len : Nat) : List Char → Bool → List String
  | l, first =>
    if _h : max_len < l.length then
      if max_len = 0 then []
      else ⟨l.take max_len⟩ :: splitStringParts max_len (l.drop max_len) false
    else if first || !l.isEmpty then [padToWidth max_len ⟨l⟩]
    else []
termination_by l _ => l.length
decreasing_by simp [List.length_drop]; omega

/-- Model of `split_string` (src/style.rs:44-58): split into chunks of
exactly `max_len` codepoints, padding the final chunk with spaces (the
source slices bytes; the verified inputs are ASCII, where byte and codepoint
boundaries coincide). -/
def split_string (s : String) (max_len : Nat) : List String :=
  splitStringParts max_len s.data true

/-- The trailing dim step of the per-part loop of `split_and_apply`
(src/style.rs:110-114).  When `i < prev_length` the source computes
`i - prev_length` on `usize`, which underflows; `Nat` subtraction clamps to
0 here (the verified property, one output string per chunk, is unaffected). -/
def saaTrailing (part : String) (prev_length i : Nat) : List Seg :=
  if i < prev_length + codepoint_len part then
    [⟨substring_by_codepoint part (i - prev_length) (codepoint_len part),
        .dimmed⟩]
  else []

/-- The span loop of `split_and_apply` for one chunk (src/style.rs:77-109):
like `applyLineGo` but with every span column offset by `prev_length`, the
columns consumed by earlier chunks; spans wholly past this chunk stop the
loop, dimming happens only once `i` has entered this chunk, and the styled
slice is clipped to the chunk on both sides. -/
def saaGo (part : String) (prev_length i : Nat) :
    List (SingleLineSpan × Style) → List Seg
  | [] => saaTrailing part prev_length i
  | (span, style) :: rest =>
    if span.start_col ≥ prev_length + codepoint_len part then
      saaTrailing part prev_length i
    else
      (if i ≥ prev_length ∧ i < span.start_col then
        [⟨substring_by_codepoint part (i - prev_length)
            (span.start_col - prev_length), .dimmed⟩]
      else []) ++
        (if span.end_col > prev_length then
          [⟨substring_by_codepoint part (span.start_col - prev_length)
              (min (codepoint_len part) (span.end_col - prev_length)),
              .styled style⟩]
        else []) ++
          saaGo part prev_length span.end_col rest

/-- The chunk loop of `split_and_apply` (src/style.rs:76-118): each chunk is
styled with `i` reset to 0 and the full style list, and `prev_length`
accumulates the codepoint length of the chunks already emitted. -/
def saaParts (styles : List (SingleLineSpan × Style)) :
    List String → Nat → List (List Seg)
  | [], _ => []
  | part :: rest, prev_length =>
    saaGo part prev_length 0 styles ::
      saaParts styles rest (prev_length + codepoint_len part)

/-- Model of `split_and_apply` (src/style.rs:60-121): missing styles render
every chunk in the error colour; otherwise the chunk loop runs. -/
def split_and_apply (line : String) (max_len : Nat)
    (styles : List (SingleLineSpan × Style)) : List (List Seg) :=
  if styles.isEmpty then
    (split_string line max_len).map fun part => [⟨part, .error⟩]
  else saaParts styles (split_string line max_len) 0

/-! ### Lemmas about deep change propagation -/

@[simp]
theorem untouchedForest_eq_map (cs : List Syntax) :
    untouchedForest cs = cs.map untouchedTree := by
  induction cs with
  | nil => simp [untouchedForest]
  | cons c cs ih => simp [untouchedForest, ih]

theorem scdAll_eq_map (cs : List Syntax) (ck : ChangeKind) :
    scdAll cs ck = cs.map fun c => set_change_deep c ck := by
  induction cs with
  | nil => simp [scdAll]
  | cons c cs ih => simp [scdAll, ih]

theorem scdZip_spec (cs : List Syntax) :
    ∀ os : List Syntax,
      scdZip cs os =
        ((cs.zip os).map fun p => set_change_deep p.1 (.Unchanged p.2)) ++
          (cs.drop os.length).map untouchedTree := by
  induction cs with
  | nil => intro os; simp [scdZip]
  | cons c cs ih =>
    intro os
    cases os with
    | nil => simp [scdZip, ih []]
    | cons o os => simp [scdZip, ih os]

theorem set_change_deep_write (s : Syntax) (ck : ChangeKind) :
    (set_change_deep s ck).write = some ck := by
  cases s with
  | atom p c k => simp [set_change_deep, WriteTree.write]
  | list op oc ch cp cc =>
    cases ck with
    | Unchanged other =>
      cases other with
      | list oop ooc och ocp occ => simp [set_change_deep, WriteTree.write]
      | atom p c k => simp [set_change_deep, WriteTree.write]
    | ReplacedComment a b => simp [set_change_deep, WriteTree.write]
    | Novel => simp [set_change_deep, WriteTree.write]

/-- `ChangeKind`s other than `Unchanged` of a list: exactly those for which
`set_change_deep` stamps every child with the same `ck`. -/
theorem set_change_deep_allStamped :
    ∀ (s : Syntax) (ck : ChangeKind),
      (∀ oop ooc och ocp occ,
        ck ≠ .Unchanged (.list oop ooc och ocp occ)) →
      AllStamped ck (set_change_deep s ck)
  | .atom p c k, ck, _ => by
    have : set_change_deep (.atom p c k) ck = .mk (some ck) [] := by
      simp [set_change_deep]
    rw [this]
    exact AllStamped.mk [] (by simp)
  | .list op oc ch cp cc, ck, h => by
    have hred : set_change_deep (.list op oc ch cp cc) ck =
        .mk (some ck) (scdAll ch ck) := by
      cases ck with
      | Unchanged other =>
        cases other with
        | list oop ooc och ocp occ => exact absurd rfl (h oop ooc och ocp occ)
        | atom p c k => simp [set_change_deep]
      | ReplacedComment a b => simp [set_change_deep]
      | Novel => simp [set_change_deep]
    rw [hred]
    refine AllStamped.mk _ ?_
    intro t ht
    rw [scdAll_eq_map] at ht
    obtain ⟨c, hc, rfl⟩ := List.mem_map.mp ht
    have : sizeOf c < sizeOf ch := List.sizeOf_lt_of_mem hc
    exact set_change_deep_allStamped c ck h
termination_by s _ _ => sizeOf s

theorem untouchedTree_allNone : ∀ s : Syntax, AllNone (untouchedTree s)
  | .atom p c k => by
    have : untouchedTree (.atom p c k) = .mk none [] := by simp [untouchedTree]
    rw [this]
    exact AllNone.mk [] (by simp)
  | .list op oc ch cp cc => by
    have : untouchedTree (.list op oc ch cp cc) =
        .mk none (ch.map untouchedTree) := by
      simp [untouchedTree]
    rw [this]
    refine AllNone.mk _ ?_
    intro t ht
    obtain ⟨c, hc, rfl⟩ := List.mem_map.mp ht
    have : sizeOf c < sizeOf ch := List.sizeOf_lt_of_mem hc
    exact untouchedTree_allNone c
termination_by s => sizeOf s

/-! ### Lemmas about unique-id assignment -/

/-- `set_unique_id` starting at `n` consumes exactly one id per node and
assigns, in preorder, exactly the ids `n, n+1, ..., n + nodeCount - 1`. -/
theorem set_unique_id_spec :
    ∀ (ns : List Syntax) (n : Nat),
      (set_unique_id ns n).2 = n + nodeCount ns ∧
        collectIds (set_unique_id ns n).1 = List.range' n (nodeCount ns)
  | [], n => by simp [set_unique_id, nodeCount, collectIds]
  | .atom p c k :: rest, n => by
    have ih := set_unique_id_spec rest (n + 1)
    constructor
    · simp only [set_unique_id, nodeCount, ih.1]
      omega
    · simp only [set_unique_id, collectIds, nodeCount, ih.2, List.nil_append]
      have h1 : 1 + nodeCount rest = nodeCount rest + 1 := by omega
      rw [h1, List.range'_succ]
  | .list op oc ch cp cc :: rest, n => by
    have ihc := set_unique_id_spec ch (n + 1)
    constructor
    · simp only [set_unique_id, ihc.1]
      rw [(set_unique_id_spec rest (n + 1 + nodeCount ch)).1]
      simp only [nodeCount]
      omega
    · simp only [set_unique_id, collectIds, ihc.1, ihc.2]
      rw [(set_unique_id_spec rest (n + 1 + nodeCount ch)).2]
      rw [List.range'_append_1]
      simp only [nodeCount]
      have h1 : 1 + nodeCount ch + nodeCount rest =
          nodeCount ch + nodeCount rest + 1 := by omega
      rw [h1, List.range'_succ, Nat.add_comm (nodeCount rest) (nodeCount ch)]
termination_by ns _ => sizeOf ns

/-! ### Lemmas about the content map and hash-consing -/

theorem lookupEnv_append_left {k : ContentKey} {env Δ : ContentEnv} {i : Nat}
    (h : lookupEnv k env = some i) : lookupEnv k (env ++ Δ) = some i := by
  induction env with
  | nil => simp [lookupEnv] at h
  | cons e rest ih =>
    by_cases he : e.1 = k
    · simpa [lookupEnv, he] using h
    · rw [lookupEnv, if_neg he] at h
      simpa [lookupEnv, he] using ih h

theorem lookupEnv_append_right {k : ContentKey} {env : ContentEnv}
    (Δ : ContentEnv) (h : lookupEnv k env = none) :
    lookupEnv k (env ++ Δ) = lookupEnv k Δ := by
  induction env with
  | nil => simp
  | cons e rest ih =>
    by_cases he : e.1 = k
    · simp [lookupEnv, he] at h
    · rw [lookupEnv, if_neg he] at h
      simpa [lookupEnv, he] using ih h

theorem lookupEnv_mem {k : ContentKey} {env : ContentEnv} {i : Nat}
    (h : lookupEnv k env = some i) : (k, i) ∈ env := by
  induction env with
  | nil => simp [lookupEnv] at h
  | cons e rest ih =>
    by_cases he : e.1 = k
    · rw [lookupEnv, if_pos he] at h
      obtain rfl : e.2 = i := Option.some.inj h
      have hm : (k, e.2) = e := Prod.ext he.symm rfl
      rw [hm]
      exact List.mem_cons_self e rest
    · rw [lookupEnv, if_neg he] at h
      exact List.mem_cons_of_mem _ (ih h)

theorem assignId_extends (k : ContentKey) (env : ContentEnv) :
    ∃ Δ, (assignId k env).2 = env ++ Δ := by
  rw [assignId]
  cases h : lookupEnv k env with
  | some i => exact ⟨[], by simp⟩
  | none => exact ⟨[(k, env.length + 1)], rfl⟩

theorem assignId_lookup (k : ContentKey) (env : ContentEnv) :
    lookupEnv k (assignId k env).2 = some (assignId k env).1 := by
  rw [assignId]
  cases h : lookupEnv k env with
  | some i => simpa using h
  | none =>
    simp only
    rw [lookupEnv_append_right _ h]
    simp [lookupEnv]

theorem assignId_WF {env : ContentEnv} (k : ContentKey) (h : envWF env) :
    envWF (assignId k env).2 := by
  rw [assignId]
  cases hl : lookupEnv k env with
  | some i => simpa using h
  | none =>
    simp only [envWF, List.map_append, List.length_append]
    rw [h]
    simp [List.range'_1_concat, Nat.add_comm]

theorem envWF_pos {env : ContentEnv} (h : envWF env) :
    ∀ p ∈ env, 0 < p.2 := by
  intro p hp
  have hmem : p.2 ∈ env.map Prod.snd := List.mem_map_of_mem _ hp
  rw [h] at hmem
  have := (List.mem_range'_1).mp hmem
  omega

theorem assignId_pos {env : ContentEnv} (k : ContentKey) (h : envWF env) :
    0 < (assignId k env).1 := by
  rw [assignId]
  cases hl : lookupEnv k env with
  | some i =>
    have := envWF_pos h _ (lookupEnv_mem hl)
    simpa using this
  | none => simp

theorem envWF_lookup_ne {env : ContentEnv} {k k' : ContentKey} {i i' : Nat}
    (h : envWF env) (hk : k ≠ k') (hi : lookupEnv k env = some i)
    (hi' : lookupEnv k' env = some i') : i ≠ i' := by
  intro heq
  have hmem : (k, i) ∈ env := lookupEnv_mem hi
  have hmem' : (k', i') ∈ env := lookupEnv_mem hi'
  have hnd : (env.map Prod.snd).Nodup := by
    rw [h]
    exact List.nodup_range' 1 env.length
  have := List.inj_on_of_nodup_map hnd hmem hmem' (by simpa using heq)
  exact hk (congrArg Prod.fst this)

/-- The master invariant of `set_content_id`: starting from a well-formed
map it only appends fresh entries, preserves well-formedness, assigns only
strictly positive ids, and assigns to every atom of the forest exactly the
id its `atomKey` has in the resulting map. -/
theorem set_content_id_spec :
    ∀ (ns : List Syntax) (env : ContentEnv), envWF env →
      (∃ Δ, (set_content_id ns env).2 = env ++ Δ) ∧
        envWF (set_content_id ns env).2 ∧
        (∀ i ∈ collectIds (set_content_id ns env).1, 0 < i) ∧
        (∀ (c : String) (k : AtomKind) (i : Nat),
          (c, k, i) ∈ collectAtoms ns (set_content_id ns env).1 →
          lookupEnv (atomKey c k) (set_content_id ns env).2 = some i)
  | [], env, _ => by
    refine ⟨⟨[], by simp [set_content_id]⟩, ?_, ?_, ?_⟩ <;>
      simp_all [set_content_id, collectIds, collectAtoms]
  | .atom p c k :: rest, env, hWF => by
    have haWF : envWF (assignId (atomKey c k) env).2 := assignId_WF _ hWF
    have ih := set_content_id_spec rest (assignId (atomKey c k) env).2 haWF
    obtain ⟨Δa, hΔa⟩ := assignId_extends (atomKey c k) env
    obtain ⟨Δr, hΔr⟩ := ih.1
    refine ⟨⟨Δa ++ Δr, ?_⟩, ?_, ?_, ?_⟩
    · simp only [set_content_id]
      rw [hΔr, hΔa, List.append_assoc]
    · simpa only [set_content_id] using ih.2.1
    · simp only [set_content_id, collectIds, List.nil_append]
      intro i hi
      rcases List.mem_cons.mp hi with rfl | hi
      · exact assignId_pos _ hWF
      · exact ih.2.2.1 i hi
    · simp only [set_content_id, collectAtoms, IdTree.id]
      intro c' k' i hi
      rcases List.mem_cons.mp hi with heq | hi
      · simp only [Prod.mk.injEq] at heq
        obtain ⟨rfl, rfl, rfl⟩ := heq
        rw [hΔr]
        exact lookupEnv_append_left (assignId_lookup _ env)
      · exact ih.2.2.2 c' k' i hi
  | .list op oc ch cp cc :: rest, env, hWF => by
    have ihc := set_content_id_spec ch env hWF
    have haWF : envWF (assignId
        (some oc, some cc, (set_content_id ch env).1.map IdTree.id, true, none)
        (set_content_id ch env).2).2 := assignId_WF _ ihc.2.1
    have ihr := set_content_id_spec rest _ haWF
    obtain ⟨Δc, hΔc⟩ := ihc.1
    obtain ⟨Δa, hΔa⟩ := assignId_extends
      (some oc, some cc, (set_content_id ch env).1.map IdTree.id, true, none)
      (set_content_id ch env).2
    obtain ⟨Δr, hΔr⟩ := ihr.1
    refine ⟨⟨Δc ++ (Δa ++ Δr), ?_⟩, ?_, ?_, ?_⟩
    · simp only [set_content_id]
      rw [hΔr, hΔa, hΔc, List.append_assoc, List.append_assoc]
    · simpa only [set_content_id] using ihr.2.1
    · simp only [set_content_id, collectIds]
      intro i hi
      rcases List.mem_cons.mp hi with rfl | hi
      · exact assignId_pos _ ihc.2.1
      · rcases List.mem_append.mp hi with hi | hi
        · exact ihc.2.2.1 i hi
        · exact ihr.2.2.1 i hi
    · simp only [set_content_id, collectAtoms, IdTree.children]
      intro c' k' i hi
      rcases List.mem_append.mp hi with hi | hi
      · have hch := ihc.2.2.2 c' k' i hi
        rw [hΔr, hΔa]
        exact lookupEnv_append_left (lookupEnv_append_left hch)
      · exact ihr.2.2.2 c' k' i hi
termination_by ns _ _ => sizeOf ns

/-! ### Lemmas about matched-position derivation -/

theorem matchedPos_new_none_iff (ck : ChangeKind) (highlight : TokenKind)
    (pos : List SingleLineSpan × List SingleLineSpan) :
    (MatchedPos.new ck highlight pos = none) ↔ ckPanics ck pos.1 = true := by
  obtain ⟨pos0, pos1⟩ := pos
  cases ck with
  | Unchanged opposite => simp [MatchedPos.new, ckPanics]
  | Novel => simp [MatchedPos.new, ckPanics]
  | ReplacedComment a b =>
    cases a with
    | list _ _ _ _ _ => simp [MatchedPos.new, ckPanics]
    | atom ap ac ak =>
      cases b with
      | list _ _ _ _ _ => simp [MatchedPos.new, ckPanics]
      | atom bp bc bk =>
        cases pos0 with
        | nil => cases bp <;> simp [MatchedPos.new, ckPanics]
        | cons p ps => cases bp <;> simp [MatchedPos.new, ckPanics]

/-- `change_positions_` evaluates to `none` (models a panic) exactly when the
forest contains a defect: an unset `change` cell, or a `ChangeKind` on which
`MatchedPos::new` panics for the position lists the walk feeds it. -/
theorem change_positions_none_iff :
    ∀ ns : List ASyntax, (change_positions_ ns = none) ↔ anyDefect ns = true
  | [] => by simp [change_positions_, anyDefect]
  | .atom change position content kind :: rest => by
    have ihrest := change_positions_none_iff rest
    cases change with
    | none => simp [change_positions_, anyDefect]
    | some ck =>
      simp only [change_positions_, anyDefect]
      cases h1 : MatchedPos.new ck (.Atom kind) (position, []) with
      | none =>
        have hp := (matchedPos_new_none_iff ck (.Atom kind) (position, [])).mp h1
        simp [hp]
      | some a =>
        have hp : ckPanics ck position = false := by
          by_contra hc
          rw [Bool.not_eq_false] at hc
          rw [← matchedPos_new_none_iff ck (.Atom kind) (position, [])] at hc
          simp [h1] at hc
        cases h2 : change_positions_ rest with
        | none => simp [hp, ihrest.mp h2]
        | some b =>
          have : anyDefect rest = false := by
            by_contra hc
            rw [Bool.not_eq_false] at hc
            rw [← ihrest] at hc
            simp [h2] at hc
          simp [hp, this]
  | .list change open_position oc children close_position cc :: rest => by
    have ihch := change_positions_none_iff children
    have ihrest := change_positions_none_iff rest
    cases change with
    | none => simp [change_positions_, anyDefect]
    | some ck =>
      simp only [change_positions_, anyDefect]
      cases h1 : MatchedPos.new ck .Delimiter (open_position, close_position) with
      | none =>
        have hp := (matchedPos_new_none_iff ck .Delimiter
          (open_position, close_position)).mp h1
        simp [hp]
      | some a =>
        have hp1 : ckPanics ck open_position = false := by
          by_contra hc
          rw [Bool.not_eq_false] at hc
          rw [← matchedPos_new_none_iff ck .Delimiter
            (open_position, close_position)] at hc
          simp [h1] at hc
        cases h2 : change_positions_ children with
        | none => simp [hp1, ihch.mp h2]
        | some b =>
          have hch : anyDefect children = false := by
            by_contra hc
            rw [Bool.not_eq_false] at hc
            rw [← ihch] at hc
            simp [h2] at hc
          cases h3 : MatchedPos.new ck .Delimiter
              (close_position, close_position) with
          | none =>
            have hp := (matchedPos_new_none_iff ck .Delimiter
              (close_position, close_position)).mp h3
            simp [hp1, hch, hp]
          | some c =>
            have hp2 : ckPanics ck close_position = false := by
              by_contra hc
              rw [Bool.not_eq_false] at hc
              rw [← matchedPos_new_none_iff ck .Delimiter
                (close_position, close_position)] at hc
              simp [h3] at hc
            cases h4 : change_positions_ rest with
            | none => simp [hp1, hch, hp2, ihrest.mp h4]
            | some d =>
              have : anyDefect rest = false := by
                by_contra hc
                rw [Bool.not_eq_false] at hc
                rw [← ihrest] at hc
                simp [h4] at hc
              simp [hp1, hch, hp2, this]
termination_by ns => sizeOf ns

/-! ### Lemmas about the styling pipeline -/

theorem saaParts_length (styles : List (SingleLineSpan × Style)) :
    ∀ (parts : List String) (prev_length : Nat),
      (saaParts styles parts prev_length).length = parts.length := by
  intro parts
  induction parts with
  | nil => intro prev; simp [saaParts]
  | cons part rest ih => intro prev; simp [saaParts, ih]

@[simp]
theorem substring_by_codepoint_length (s : String) (a b : Nat) :
    (substring_by_codepoint s a b).length = min (b - a) (codepoint_len s - a) := by
  have h : (substring_by_codepoint s a b).length =
      ((s.data.drop a).take (b - a)).length := rfl
  rw [h, List.length_take, List.length_drop]
  rfl

theorem totalLen_append (l₁ l₂ : List Seg) :
    totalLen (l₁ ++ l₂) = totalLen l₁ + totalLen l₂ := by
  simp [totalLen]

theorem applyLineTrailing_total (line : String) (i : Nat) :
    totalLen (applyLineTrailing line i) = codepoint_len line - i := by
  by_cases hi : i < codepoint_len line
  · simp [applyLineTrailing, hi, totalLen]
  · simp [applyLineTrailing, hi, totalLen]
    omega

/-- For an ordered, well-formed span chain starting at column `i`, the span
loop of `apply_line` emits segments carrying exactly the characters from
column `i` to the end of the line. -/
theorem applyLineGo_total (line : String) :
    ∀ (styles : List (SingleLineSpan × Style)) (i : Nat),
      spanChainOk i styles = true →
      totalLen (applyLineGo line i styles) = codepoint_len line - i := by
  intro styles
  induction styles with
  | nil => intro i _; simp [applyLineGo, applyLineTrailing_total]
  | cons hd rest ih =>
    intro i hchain
    obtain ⟨span, style⟩ := hd
    simp only [spanChainOk, Bool.and_eq_true, decide_eq_true_eq] at hchain
    obtain ⟨⟨his, hse⟩, hrest⟩ := hchain
    by_cases hbreak : span.start_col ≥ codepoint_len line
    · simp [applyLineGo, hbreak, applyLineTrailing_total]
    · push_neg at hbreak
      have hrec := ih span.end_col hrest
      simp only [totalLen] at hrec
      by_cases hdim : i < span.start_col <;>
        simp [applyLineGo, not_le.mpr hbreak, hdim, totalLen_append,
          totalLen] <;>
        omega

end Difftastic

/-- Claim C6: `set_change_deep ck` sets `change = ck` on the receiver; on a
`List` receiver with `ck = Unchanged(other)` for a `List` `other`, the
children are zipped pairwise with `other`'s children (the shorter list
determines the pair count, trailing receiver children are untouched — no
node of their subtree receives a write) and each pair recurses with
`Unchanged(other_child)`; for `ck = Novel` or `ReplacedComment`, every node
of the subtree receives that same `ck` unchanged. -/
theorem c6_set_change_deep_propagation :
    (∀ (s : Difftastic.Syntax) (ck : Difftastic.ChangeKind),
      (Difftastic.set_change_deep s ck).write = some ck) ∧
    (∀ op oc (ch : List Difftastic.Syntax) cp cc oop ooc och ocp occ,
      (Difftastic.set_change_deep (.list op oc ch cp cc)
          (.Unchanged (.list oop ooc och ocp occ))).children =
        ((ch.zip och).map fun p =>
          Difftastic.set_change_deep p.1 (.Unchanged p.2)) ++
          (ch.drop och.length).map Difftastic.untouchedTree) ∧
    (∀ s : Difftastic.Syntax,
      Difftastic.AllNone (Difftastic.untouchedTree s)) ∧
    (∀ s : Difftastic.Syntax,
      Difftastic.AllStamped .Novel (Difftastic.set_change_deep s .Novel)) ∧
    (∀ (s : Difftastic.Syntax) (a b : Difftastic.Syntax),
      Difftastic.AllStamped (.ReplacedComment a b)
        (Difftastic.set_change_deep s (.ReplacedComment a b))) := by
  refine ⟨Difftastic.set_change_deep_write, ?_, Difftastic.untouchedTree_allNone,
    fun s => Difftastic.set_change_deep_allStamped s _ (by intro _ _ _ _ _ h; cases h),
    fun s a b => Difftastic.set_change_deep_allStamped s _ (by intro _ _ _ _ _ h; cases h)⟩
  intro op oc ch cp cc oop ooc och ocp occ
  simp [Difftastic.set_change_deep, Difftastic.WriteTree.children,
    Difftastic.scdZip_spec]

/-- Claim C10 (implicit edge case): `set_change_deep` on a `List` receiver
with `ck = Unchanged(other)` where `other` is an `Atom` does not take the
zipping branch; every child — and recursively every node of the subtree —
receives `Unchanged(other)` pointing at that same atom. -/
theorem c10_set_change_deep_unchanged_atom :
    (∀ op oc (ch : List Difftastic.Syntax) cp cc p c k,
      (Difftastic.set_change_deep (.list op oc ch cp cc)
          (.Unchanged (.atom p c k))).children =
        ch.map fun child =>
          Difftastic.set_change_deep child (.Unchanged (.atom p c k))) ∧
    (∀ (s : Difftastic.Syntax) p c k,
      Difftastic.AllStamped (.Unchanged (.atom p c k))
        (Difftastic.set_change_deep s (.Unchanged (.atom p c k)))) := by
  constructor
  · intro op oc ch cp cc p c k
    simp [Difftastic.set_change_deep, Difftastic.WriteTree.children,
      Difftastic.scdAll_eq_map]
  · intro s p c k
    exact Difftastic.set_change_deep_allStamped s _ (by intro _ _ _ _ _ h; cases h)

/-- Claim C1: content ids define structural identity.  After `init_info`
runs over both trees, any two `Atom` nodes (wherever they sit, whatever
their spans — change status is not even an input of the pass) with identical
text and identical `AtomKind` receive equal `content_id`; two atoms with
identical text but different `AtomKind` receive different `content_id`s; and
the node equality of `impl PartialEq` (modelled by `syntaxEq`, which like
the source reads nothing but the two `content_id`s, as does `impl Hash`)
accordingly holds exactly for matching text-and-kind. -/
theorem c1_content_id_structural_identity
    (lhs_roots rhs_roots : List Difftastic.Syntax) (c : String)
    (k k' : Difftastic.AtomKind) (i i' : Nat)
    (h : (c, k, i) ∈ Difftastic.allAtomIds lhs_roots rhs_roots)
    (h' : (c, k', i') ∈ Difftastic.allAtomIds lhs_roots rhs_roots) :
    (k = k' → i = i' ∧ Difftastic.syntaxEq i i' = true) ∧
      (k ≠ k' → i ≠ i' ∧ Difftastic.syntaxEq i i' = false) := by
  have hnil : Difftastic.envWF [] := rfl
  have hc1 := Difftastic.set_content_id_spec lhs_roots [] hnil
  have hc2 := Difftastic.set_content_id_spec rhs_roots
    (Difftastic.set_content_id lhs_roots []).2 hc1.2.1
  obtain ⟨Δ, hΔ⟩ := hc2.1
  have key : ∀ (c₀ : String) (k₀ : Difftastic.AtomKind) (i₀ : Nat),
      (c₀, k₀, i₀) ∈ Difftastic.allAtomIds lhs_roots rhs_roots →
      Difftastic.lookupEnv (Difftastic.atomKey c₀ k₀)
        (Difftastic.set_content_id rhs_roots
          (Difftastic.set_content_id lhs_roots []).2).2 = some i₀ := by
    intro c₀ k₀ i₀ hm
    have hm' : (c₀, k₀, i₀) ∈ Difftastic.collectAtoms lhs_roots
          (Difftastic.set_content_id lhs_roots []).1 ∨
        (c₀, k₀, i₀) ∈ Difftastic.collectAtoms rhs_roots
          (Difftastic.set_content_id rhs_roots
            (Difftastic.set_content_id lhs_roots []).2).1 :=
      List.mem_append.mp hm
    rcases hm' with hm' | hm'
    · have hl := hc1.2.2.2 c₀ k₀ i₀ hm'
      rw [hΔ]
      exact Difftastic.lookupEnv_append_left hl
    · exact hc2.2.2.2 c₀ k₀ i₀ hm'
  have hki := key c k i h
  have hki' := key c k' i' h'
  constructor
  · rintro rfl
    have heq : i = i' := Option.some.inj (hki.symm.trans hki')
    exact ⟨heq, by simp [Difftastic.syntaxEq, heq]⟩
  · intro hkk
    have hkey : Difftastic.atomKey c k ≠ Difftastic.atomKey c k' := by
      intro he
      apply hkk
      have h5 := congrArg (fun t => t.2.2.2.2) he
      simpa [Difftastic.atomKey] using h5
    have hne : i ≠ i' := Difftastic.envWF_lookup_ne hc2.2.1 hkey hki hki'
    exact ⟨hne, by simpa [Difftastic.syntaxEq] using beq_false_of_ne hne⟩

/-- Witness for claim C1 at a concrete input: one `"foo"` comment atom on
each side, with different spans (`[]` versus a span on line 1); both receive
content id 1 and compare equal. -/
theorem c1_content_id_structural_identity_witness :
    (Difftastic.AtomKind.Comment = Difftastic.AtomKind.Comment →
      1 = 1 ∧ Difftastic.syntaxEq 1 1 = true) ∧
    (Difftastic.AtomKind.Comment ≠ Difftastic.AtomKind.Comment →
      1 ≠ 1 ∧ Difftastic.syntaxEq 1 1 = false) :=
  c1_content_id_structural_identity
    [.atom [] "foo" .Comment] [.atom [⟨1, 2, 3⟩] "foo" .Comment]
    "foo" .Comment .Comment 1 1
    (by simp [Difftastic.allAtomIds, Difftastic.init_info,
      Difftastic.collectAtoms, Difftastic.set_content_id, Difftastic.assignId,
      Difftastic.lookupEnv, Difftastic.atomKey, Difftastic.IdTree.id])
    (by simp [Difftastic.allAtomIds, Difftastic.init_info,
      Difftastic.collectAtoms, Difftastic.set_content_id, Difftastic.assignId,
      Difftastic.lookupEnv, Difftastic.atomKey, Difftastic.IdTree.id])

/-- Claim C2: multi-line comment normalization.  A `Comment` atom with text
`"foo\nbar"` and one with `"foo\n    bar"` (leading whitespace differing on
the continuation line) receive the same `content_id` whatever their spans,
because `set_content_id` strips each line's leading whitespace before
building the content key; atoms of either non-`Comment` kind with those same
two texts receive different `content_id`s (mirrors the Rust test
`test_multiline_comment_ignores_leading_whitespace`). -/
theorem c2_multiline_comment_normalization :
    ∀ p q : List Difftastic.SingleLineSpan,
      ((Difftastic.rootContentIds (.atom p "foo\nbar" .Comment)
          (.atom q "foo\n    bar" .Comment)).1 =
        (Difftastic.rootContentIds (.atom p "foo\nbar" .Comment)
          (.atom q "foo\n    bar" .Comment)).2) ∧
      ((Difftastic.rootContentIds (.atom p "foo\nbar" .Normal)
          (.atom q "foo\n    bar" .Normal)).1 ≠
        (Difftastic.rootContentIds (.atom p "foo\nbar" .Normal)
          (.atom q "foo\n    bar" .Normal)).2) ∧
      ((Difftastic.rootContentIds (.atom p "foo\nbar" .Keyword)
          (.atom q "foo\n    bar" .Keyword)).1 ≠
        (Difftastic.rootContentIds (.atom p "foo\nbar" .Keyword)
          (.atom q "foo\n    bar" .Keyword)).2) := by
  intro p q
  have e1 : Difftastic.clean_content "foo\nbar" .Comment = "foo\nbar" := by
    decide
  have e2 : Difftastic.clean_content "foo\n    bar" .Comment = "foo\nbar" := by
    decide
  have e3 : Difftastic.clean_content "foo\nbar" .Normal = "foo\nbar" := by
    decide
  have e4 : Difftastic.clean_content "foo\n    bar" .Normal =
      "foo\n    bar" := by decide
  have e5 : Difftastic.clean_content "foo\nbar" .Keyword = "foo\nbar" := by
    decide
  have e6 : Difftastic.clean_content "foo\n    bar" .Keyword =
      "foo\n    bar" := by decide
  have hneq : ("foo\nbar" : String) ≠ "foo\n    bar" := by decide
  refine ⟨?_, ?_, ?_⟩ <;>
    simp [Difftastic.rootContentIds, Difftastic.set_content_id,
      Difftastic.assignId, Difftastic.lookupEnv, Difftastic.atomKey,
      Difftastic.IdTree.id, e1, e2, e3, e4, e5, e6, hneq]

/-- Claim C3: identifier uniqueness.  `init_info` assigns unique ids with
one running counter, covering every left-tree node in preorder before any
right-tree node: the left forest receives exactly `0 .. nodeCount lhs - 1`,
the right forest continues at `nodeCount lhs`, all ids across both trees are
pairwise distinct, and every assigned `content_id` is strictly greater than
zero. -/
theorem c3_unique_id_distinct_content_id_positive :
    ∀ lhs_roots rhs_roots : List Difftastic.Syntax,
      Difftastic.collectIds (Difftastic.init_info lhs_roots rhs_roots).1.1 =
        List.range' 0 (Difftastic.nodeCount lhs_roots) ∧
      Difftastic.collectIds (Difftastic.init_info lhs_roots rhs_roots).1.2 =
        List.range' (Difftastic.nodeCount lhs_roots)
          (Difftastic.nodeCount rhs_roots) ∧
      (Difftastic.collectIds (Difftastic.init_info lhs_roots rhs_roots).1.1 ++
        Difftastic.collectIds
          (Difftastic.init_info lhs_roots rhs_roots).1.2).Nodup ∧
      ((Difftastic.collectIds (Difftastic.init_info lhs_roots rhs_roots).2.1 ++
        Difftastic.collectIds
          (Difftastic.init_info lhs_roots rhs_roots).2.2).all
        fun i => decide (0 < i)) = true := by
  intro L R
  have hul := Difftastic.set_unique_id_spec L 0
  have hur := Difftastic.set_unique_id_spec R (Difftastic.set_unique_id L 0).2
  have hstart : (Difftastic.set_unique_id L 0).2 = Difftastic.nodeCount L := by
    rw [hul.1, Nat.zero_add]
  have hnil : Difftastic.envWF [] := rfl
  have hc1 := Difftastic.set_content_id_spec L [] hnil
  have hc2 := Difftastic.set_content_id_spec R
    (Difftastic.set_content_id L []).2 hc1.2.1
  refine ⟨?_, ?_, ?_, ?_⟩
  · simpa only [Difftastic.init_info] using hul.2
  · simp only [Difftastic.init_info]
    rw [hur.2, hstart]
  · simp only [Difftastic.init_info]
    rw [hul.2, hur.2, hstart, List.nodup_append]
    refine ⟨List.nodup_range' 0 (Difftastic.nodeCount L),
      List.nodup_range' (Difftastic.nodeCount L) (Difftastic.nodeCount R), ?_⟩
    intro x hx hx'
    rw [List.mem_range'_1] at hx hx'
    omega
  · simp only [Difftastic.init_info]
    rw [List.all_eq_true]
    intro i hi
    rw [decide_eq_true_eq]
    rcases List.mem_append.mp hi with hi | hi
    · exact hc1.2.2.1 i hi
    · exact hc2.2.2.1 i hi

/-- Claim C9 counterexample: `change_positions` can panic even though every
walked node has a `ChangeKind` set.  A single atom whose `ChangeKind` is
`ReplacedComment` with a `List` first payload hits the `unreachable!()` arm
of `MatchedPos::new` (src/syntax.rs:612), so "panics if and only if some
node has no ChangeKind set" fails in the only-if direction: here every node
has a change, yet the walk halts. -/
theorem c9_counterexample_replaced_comment_list_payload :
    Difftastic.allChangesSet
        [.atom (some (.ReplacedComment (.list [] "" [] [] "")
            (.atom [⟨0, 0, 1⟩] "x" .Comment))) [⟨0, 0, 1⟩] "a" .Comment] =
      true ∧
    Difftastic.change_positions "a" "x"
        [.atom (some (.ReplacedComment (.list [] "" [] [] "")
            (.atom [⟨0, 0, 1⟩] "x" .Comment))) [⟨0, 0, 1⟩] "a" .Comment] =
      none := by
  constructor
  · simp [Difftastic.allChangesSet]
  · show Difftastic.change_positions_ _ = none
    simp [Difftastic.change_positions_, Difftastic.MatchedPos.new]

/-- Claim C9 (amended): `change_positions` halts the diff (panics) if and
only if some node it walks has no `ChangeKind` set, or carries a
`ReplacedComment` whose payloads are not both `Atom`s, or carries a
`ReplacedComment` whose span bookkeeping would index an empty position list
(the walked node's own open/close or atom position list, or the opposite
atom's position list); when none of these occur it returns normally.  The
original claim's "if and only if some node has no ChangeKind" misses the
`ReplacedComment` defect panics (see the counterexample). -/
theorem c9_change_positions_panic_iff
    (src opposite_src : String) (nodes : List Difftastic.ASyntax) :
    (Difftastic.change_positions src opposite_src nodes = none) ↔
      Difftastic.anyDefect nodes = true :=
  Difftastic.change_positions_none_iff nodes

/-- Claim C7 counterexample: rendering coverage is not total for arbitrary
non-empty style lists.  With the line `"ab"` and two identical spans covering
columns 0–2, `apply_line` emits the two characters twice — 4 codepoints of
output for a 2-codepoint line — because nothing stops an overlapping span
from re-emitting text the previous span already covered
(src/style.rs:131-149 only tracks the running column `i`, and a span whose
`start_col` is below `i` restarts inside covered text). -/
theorem c7_counterexample_overlapping_spans :
    ([(⟨0, 0, 2⟩, ⟨.White, none, false, false⟩),
        (⟨0, 0, 2⟩, ⟨.White, none, false, false⟩)] :
      List (Difftastic.SingleLineSpan × Difftastic.Style)) ≠ [] ∧
    Difftastic.totalLen
        (Difftastic.apply_line "ab"
          [(⟨0, 0, 2⟩, ⟨.White, none, false, false⟩),
            (⟨0, 0, 2⟩, ⟨.White, none, false, false⟩)]) ≠
      Difftastic.codepoint_len "ab" := by
  constructor
  · decide
  · decide

/-- Claim C7 (amended): rendering coverage is total for every input line and
every non-empty style list whose spans are well-formed and in order (each
span's `start_col` is at least the previous span's `end_col`, and no span
ends before it starts): the sum of the codepoint lengths of the styled and
dimmed segments `apply_line` emits equals the codepoint length of the input
line.  The original claim quantified over arbitrary style lists; overlapping
spans duplicate characters (see the counterexample), so the ordering
hypothesis is required. -/
theorem c7_apply_line_coverage_total
    (line : String) (styles : List (Difftastic.SingleLineSpan × Difftastic.Style))
    (hne : styles ≠ [])
    (hchain : Difftastic.spanChainOk 0 styles = true) :
    Difftastic.totalLen (Difftastic.apply_line line styles) =
      Difftastic.codepoint_len line := by
  have hit : styles.isEmpty = false := by
    cases styles with
    | nil => exact absurd rfl hne
    | cons a l => rfl
  rw [Difftastic.apply_line, hit]
  simp only [Bool.false_eq_true, if_false]
  rw [Difftastic.applyLineGo_total line styles 0 hchain]
  omega

/-- Witness for the amended claim C7 at a concrete input: one span `[1, 2)`
over the line `"abc"` gives one dimmed character, one styled character, and
one trailing dimmed character — 3 codepoints in total. -/
theorem c7_apply_line_coverage_total_witness :
    Difftastic.totalLen
        (Difftastic.apply_line "abc"
          [(⟨0, 1, 2⟩, ⟨.White, none, false, false⟩)]) =
      Difftastic.codepoint_len "abc" :=
  c7_apply_line_coverage_total "abc"
    [(⟨0, 1, 2⟩, ⟨.White, none, false, false⟩)] (by decide) (by decide)

/-- Claim C8: `split_string` splits a string into consecutive chunks of
exactly `max_len`, padding the final chunk with trailing spaces to
`max_len`; in particular `split_string "fooba" 3 = ["foo", "ba "]`.
`split_and_apply` applies the per-chunk span/dim logic over exactly these
chunks (one output per chunk, any style list), threading the columns
consumed by earlier chunks through `prev_length`. -/
theorem c8_split_string_chunk_padding :
    Difftastic.split_string "fooba" 3 = ["foo", "ba "] ∧
      ∀ (line : String) (max_len : Nat)
        (styles : List (Difftastic.SingleLineSpan × Difftastic.Style)),
        (Difftastic.split_and_apply line max_len styles).length =
          (Difftastic.split_string line max_len).length := by
  constructor
  · have hdata : "fooba".data = ['f', 'o', 'o', 'b', 'a'] := rfl
    rw [Difftastic.split_string, hdata]
    rw [Difftastic.splitStringParts]
    norm_num
    rw [Difftastic.splitStringParts]
    norm_num [Difftastic.padToWidth]
    decide
  · intro line max_len styles
    by_cases h : styles.isEmpty
    · simp [Difftastic.split_and_apply, h]
    · simp [Difftastic.split_and_apply, h, Difftastic.saaParts_length]

/-- Claim C5: `split_comment_words` on this-side text `"abc"` (single span
covering columns 0 to 3) against opposite text `"def"` returns exactly one
`MatchedPos`, of kind `ChangedCommentPart`, spanning the whole 3-character
range (start_col 0, end_col 3); no `UnchangedCommentPart` is produced
(mirrors the Rust test `test_split_comment_words_basic`). -/
theorem c5_comment_word_diff_fully_novel :
    Difftastic.split_comment_words "abc" ⟨0, 0, 3⟩ "def" ⟨0, 0, 3⟩ =
      [⟨.ChangedCommentPart, ⟨0, 0, 3⟩⟩] := by
  have hd : Difftastic.diff_slice (Difftastic.split_words "abc")
      (Difftastic.split_words "def") =
        [.Left "abc", .Right "def"] := by
    have h1 : Difftastic.split_words "abc" = ["abc"] := by decide
    have h2 : Difftastic.split_words "def" = ["def"] := by decide
    rw [h1, h2]
    simp [Difftastic.diff_slice, Difftastic.lcsLen]
  unfold Difftastic.split_comment_words
  rw [hd]
  decide

/-- Claim C4: `split_words` tokenizes a string into maximal runs of ASCII
alphanumerics, single newlines, and single occurrences of any other
character; in particular `split_words "example.com" = ["example", ".", "com"]`,
`split_words "example.." = ["example", ".", "."]`, and
`split_words "example.\ncom" = ["example", ".", "\n", "com"]`
(the three examples fixed by the spec, mirroring the Rust tests
`test_split_words`, `test_split_words_punctuations` and
`test_split_words_treats_newline_separately`). -/
theorem c4_split_words_examples :
    Difftastic.split_words "example.com" = ["example", ".", "com"] ∧
      Difftastic.split_words "example.." = ["example", ".", "."] ∧
        Difftastic.split_words "example.\ncom" = ["example", ".", "\n", "com"] := by
  refine ⟨?_, ?_, ?_⟩ <;> decide
